import Mathlib

/-!
Verification of the colordoll colorization engine (src/colordoll.py).

Python strings are modelled as `List Char` (`Str`); Python `None` arguments
are modelled with `Option`.  Fallible Python code (assertions, uncaught
exceptions) is modelled with `Except String`.  All definitions are
executable so that concrete runs can be settled by `decide` / `rfl`.
-/

namespace Colordoll

/-- Python strings are modelled as lists of characters. -/
abbrev Str := List Char

/-- The ASCII escape character `\033`. -/
def esc : Char := '\x1b'

/-- The ANSI reset sequence `ESC[0m`, i.e. `str(Colorizer.RESET)`. -/
def resetL : Str := ['\x1b', '[', '0', 'm']

/-- `AnsiColor`: an ANSI escape code plus a color name. -/
structure AnsiColor where
  code : Int
  name : Str
deriving DecidableEq

/-- `AnsiColor.__str__`: renders `f"\033[{self.code}m"`. -/
def ansiStr (c : AnsiColor) : Str :=
  "\x1b[".data ++ (toString c.code).data ++ "m".data

/-- `str.lower()` (the color names used here are ASCII). -/
def lowerL (s : Str) : Str := s.map Char.toLower

/-- Association-list lookup keyed by strings; models Python `dict.get`
for the color dictionaries (whose keys are unique). -/
def lookupS (key : Str) : List (Str × AnsiColor) → Option AnsiColor
  | [] => none
  | (k, v) :: rest => if key = k then some v else lookupS key rest

/-- The built-in foreground palette of `Colorizer._load_ansi_colors`. -/
def ansiColors : List (Str × Int) :=
  [("black".data, 30), ("red".data, 31), ("green".data, 32),
   ("yellow".data, 33), ("blue".data, 34), ("magenta".data, 35),
   ("cyan".data, 36), ("white".data, 37),
   ("bright_black".data, 90), ("bright_red".data, 91),
   ("bright_green".data, 92), ("bright_yellow".data, 93),
   ("bright_blue".data, 94), ("bright_magenta".data, 95),
   ("bright_cyan".data, 96), ("bright_white".data, 97)]

/-- The built-in background palette of `Colorizer._load_ansi_colors`. -/
def ansiBgColors : List (Str × Int) :=
  [("bg_black".data, 40), ("bg_red".data, 41), ("bg_green".data, 42),
   ("bg_yellow".data, 43), ("bg_blue".data, 44), ("bg_magenta".data, 45),
   ("bg_cyan".data, 46), ("bg_white".data, 47),
   ("bg_bright_black".data, 100), ("bg_bright_red".data, 101),
   ("bg_bright_green".data, 102), ("bg_bright_yellow".data, 103),
   ("bg_bright_blue".data, 104), ("bg_bright_magenta".data, 105),
   ("bg_bright_cyan".data, 106), ("bg_bright_white".data, 107)]

/-- Python `name.replace("bg_", "")`: removes every occurrence of `bg_`,
scanning left to right and continuing after each removal. -/
def stripBg : Str → Str
  | 'b' :: 'g' :: '_' :: rest => stripBg rest
  | c :: rest => c :: stripBg rest
  | [] => []

/-- `Colorizer.colors`: the foreground dictionary, keyed by color name. -/
def colorizerColors : List (Str × AnsiColor) :=
  ansiColors.map (fun p => (p.1, ⟨p.2, p.1⟩))

/-- `Colorizer.bg_colors`: the background dictionary.  The key is
`name.replace("bg_", "")` (the base color name) while the stored
`AnsiColor` keeps the full `bg_`-prefixed name. -/
def colorizerBgColors : List (Str × AnsiColor) :=
  ansiBgColors.map (fun p => (stripBg p.1, ⟨p.2, p.1⟩))

/-- `Colorizer.get_color_code`: escape string for a foreground name, or
the empty string when the name is not defined. -/
def getColorCode (name : Str) : Str :=
  match lookupS (lowerL name) colorizerColors with
  | some c => ansiStr c
  | none => []

/-- `Colorizer.get_bg_color_code`: escape string for a background name, or
the empty string when the name is not defined. -/
def getBgColorCode (name : Str) : Str :=
  match lookupS (lowerL name) colorizerBgColors with
  | some c => ansiStr c
  | none => []

/-- Python `str.split(sep)` for a one-character separator (the only
separators `colorize` uses are `'['` and `'m'`). -/
def splitOnChar (sep : Char) : Str → List Str
  | [] => [[]]
  | c :: rest =>
    if c = sep then [] :: splitOnChar sep rest
    else
      match splitOnChar sep rest with
      | p :: ps => (c :: p) :: ps
      | [] => [[c]]

/-- The code-extraction surgery `s.split('[')[1].split('m')[0]` used when
building the composite start tag.  (`getD` stands in for Python indexing;
on every string reaching this point both indices exist.) -/
def extractCode (s : Str) : Str :=
  (splitOnChar 'm' ((splitOnChar '[' s).getD 1 [])).getD 0 []

/-- The `start_tag` computation of `Colorizer.colorize` for non-empty
resolution: one composite `ESC[<fg>;<bg>m` sequence when both codes are
present, otherwise whichever single escape string is present. -/
def mkStartTag (colorCode bgCode : Str) : Str :=
  if colorCode ≠ [] ∧ bgCode ≠ [] then
    "\x1b[".data ++ extractCode colorCode ++ ";".data ++ extractCode bgCode ++ "m".data
  else if colorCode ≠ [] then colorCode
  else bgCode

/-- The `_process_text` helper of `Colorizer.colorize`: scan the text and
after every literal occurrence of the reset sequence re-emit the current
start tag; all other characters are copied unchanged. -/
def processText (startTag : Str) : Str → Str
  | '\x1b' :: '[' :: '0' :: 'm' :: rest => resetL ++ startTag ++ processText startTag rest
  | c :: rest => c :: processText startTag rest
  | [] => []

/-- The resolved foreground fragment,
`self.get_color_code(color) if color else ""`. -/
def resolveColor : Option Str → Str
  | some c => getColorCode c
  | none => []

/-- The resolved background fragment,
`self.get_bg_color_code(background_color) if background_color else ""`. -/
def resolveBg : Option Str → Str
  | some b => getBgColorCode b
  | none => []

/-- `Colorizer.colorize`: resolve the two optional color names; if neither
resolves return the text unchanged, otherwise wrap the reset-repaired text
in the start tag and one trailing reset. -/
def colorize (text : Str) (color backgroundColor : Option Str) : Str :=
  let colorCode := resolveColor color
  let bgColorCode := resolveBg backgroundColor
  if colorCode = [] ∧ bgColorCode = [] then text
  else
    let startTag := mkStartTag colorCode bgColorCode
    startTag ++ processText startTag text ++ resetL

/-- The split of a text at the occurrences of the reset sequence, produced
by the same left-to-right scan `_process_text` performs.  The result is a
non-empty list of fragments, returned as head and tail. -/
def splitResetP : Str → Str × List Str
  | '\x1b' :: '[' :: '0' :: 'm' :: rest =>
    ([], (splitResetP rest).1 :: (splitResetP rest).2)
  | c :: rest => (c :: (splitResetP rest).1, (splitResetP rest).2)
  | [] => ([], [])

/-- Join a list of fragments with a separator between consecutive
fragments (used to state what `_process_text` computes). -/
def joinSep (sep : Str) : List Str → Str
  | [] => []
  | [p] => p
  | p :: q :: ps => p ++ sep ++ joinSep sep (q :: ps)

/-- The shape every start tag emitted by `colorize` has: at least four
characters, ending in `m`, with the escape character nowhere but at the
head, and distinct from the reset sequence. -/
abbrev GoodTag (t : Str) : Prop :=
  4 ≤ t.length ∧ t.getLast? = some 'm' ∧ esc ∉ t.tail ∧ t ≠ resetL

/-! ### ColorConfig

`ColorConfig` stores a configuration mapping.  Records are JSON objects
with integer fields; a record is modelled as an association list from
field name to integer, a configuration as an association list from color
name to record. -/

/-- One config record, e.g. `{"code": 208}`. -/
abbrev ConfigEntry := List (Str × Int)

/-- An in-memory configuration mapping color names to records. -/
abbrev ConfigDict := List (Str × ConfigEntry)

/-- Association-list lookup for a config record. -/
def lookupEntry (key : Str) : ConfigDict → Option ConfigEntry
  | [] => Option.none
  | (k, v) :: rest => if key = k then some v else lookupEntry key rest

/-- Association-list lookup for a field of a record. -/
def lookupField (key : Str) : ConfigEntry → Option Int
  | [] => Option.none
  | (k, v) :: rest => if key = k then some v else lookupField key rest

/-- `ColorConfig.load_config` on an in-memory dictionary source: the
`isinstance` assertion holds by typing and the dictionary is returned
unchanged, without inspecting any entry.  (File sources perform IO and
are outside the embedding.) -/
def loadConfig (configSource : ConfigDict) : Except String ConfigDict :=
  Except.ok configSource

/-- `ColorConfig.__init__`: load the source if one is given, else start
from the empty mapping. -/
def mkColorConfig : Option ConfigDict → Except String ConfigDict
  | some src => loadConfig src
  | Option.none => Except.ok []

/-- `ColorConfig._get_color_object`: absent names give `None`; a present
record missing the `code` field trips the assertion, modelled as an
error. -/
def configGetColorObject (config : ConfigDict) (arg0 : Str) :
    Except String (Option AnsiColor) :=
  match lookupEntry arg0 config with
  | Option.none => Except.ok Option.none
  | some colorData =>
    match lookupField "code".data colorData with
    | some code => Except.ok (some ⟨code, arg0⟩)
    | Option.none => Except.error "invalid color configuration: missing code field"

/-- `ColorConfig.get_color_code`: escape string of the object, or the
empty string when the name is absent. -/
def configGetColorCode (config : ConfigDict) (name : Str) : Except String Str :=
  match configGetColorObject config name with
  | Except.error e => Except.error e
  | Except.ok (some col) => Except.ok (ansiStr col)
  | Except.ok Option.none => Except.ok []

/-- `ColorConfig.get_bg_color_code` via `get_bg_color_obj`, which prepends
`bg_` to the requested name before the lookup. -/
def configGetBgColorCode (config : ConfigDict) (name : Str) : Except String Str :=
  match configGetColorObject config ("bg_".data ++ name) with
  | Except.error e => Except.error e
  | Except.ok (some col) => Except.ok (ansiStr col)
  | Except.ok Option.none => Except.ok []

/-- `Colorizer.__init__`: the optional `ColorConfig` is stored in
`self.config`, and `_load_ansi_colors` fills `self.colors` /
`self.bg_colors` with only the built-in tables; nothing reads the stored
config afterwards. -/
structure ColorizerState where
  config : ConfigDict
  colors : List (Str × AnsiColor)
  bgColors : List (Str × AnsiColor)

/-- Construct a `Colorizer` over a configuration. -/
def mkColorizer (config : ConfigDict) : ColorizerState :=
  { config := config, colors := colorizerColors, bgColors := colorizerBgColors }

/-- `Colorizer.get_color_code` reading the state: only `self.colors` is
consulted. -/
def stateGetColorCode (st : ColorizerState) (name : Str) : Str :=
  match lookupS (lowerL name) st.colors with
  | some c => ansiStr c
  | Option.none => []

/-! ### theme_colorize

The data reaching `theme_colorize` (dicts, lists, strings, bools, ints,
floats, `None`, anything else) is modelled by `PyVal`.  Floats and opaque
values carry their `str()` rendering.  The `json.loads(json.dumps(data))`
normalization applied to dicts and lists is the identity on this value
domain (keys are strings and a non-serializable `other` node makes
`json.dumps` raise `TypeError`, which `contextlib.suppress` swallows,
leaving `data` unchanged), so it is not re-modelled. -/

/-- A Python value as dispatched on by `theme_colorize`. -/
inductive PyVal where
  | dict : List (Str × PyVal) → PyVal
  | list : List PyVal → PyVal
  | str : Str → PyVal
  | bool : Bool → PyVal
  | int : Int → PyVal
  | float : Str → PyVal
  | none : PyVal
  | other : Str → PyVal

/-- A theme: the six color roles `theme_colorize` reads. -/
structure Theme where
  key : Str
  string : Str
  number : Str
  bool : Str
  null : Str
  other : Str

/-- The built-in dark theme. -/
def darkThemeColors : Theme :=
  { key := "bright_cyan".data, string := "yellow".data,
    number := "bright_red".data, bool := "magenta".data,
    null := "bright_magenta".data, other := "yellow".data }

/-- The built-in light theme. -/
def lightThemeColors : Theme :=
  { key := "blue".data, string := "bright_yellow".data,
    number := "bright_cyan".data, bool := "bright_magenta".data,
    null := "bright_magenta".data, other := "yellow".data }

/-- The built-in minimalist theme. -/
def minimalistThemeColors : Theme :=
  { key := "bright_black".data, string := "yellow".data,
    number := "magenta".data, bool := "bright_black".data,
    null := "white".data, other := "white".data }

/-- The built-in vibrant theme. -/
def vibrantThemeColors : Theme :=
  { key := "bright_yellow".data, string := "bright_green".data,
    number := "bright_magenta".data, bool := "bright_cyan".data,
    null := "yellow".data, other := "bright_white".data }

/-! #### A model of `json.loads`

`theme_colorize` reinterprets string payloads through `json.loads`.  The
parser below models CPython's strict JSON grammar (with the `NaN` /
`Infinity` extensions).  `\uXXXX` string escapes are not modelled (the
parser rejects them; no theorem evaluates such an input), and a
non-integer number carries its literal text as its `str()` form, an
approximation of CPython float formatting that no theorem depends on. -/

/-- JSON whitespace skipping. -/
def jSkipWs : Str → Str
  | c :: rest =>
    if c = ' ' ∨ c = '\t' ∨ c = '\n' ∨ c = '\r' then jSkipWs rest else c :: rest
  | [] => []

/-- Decode one simple string escape. -/
def jEscChar (c : Char) : Option Char :=
  if c = '"' then some '"'
  else if c = '\\' then some '\\'
  else if c = '/' then some '/'
  else if c = 'b' then some '\x08'
  else if c = 'f' then some '\x0c'
  else if c = 'n' then some '\n'
  else if c = 'r' then some '\r'
  else if c = 't' then some '\t'
  else Option.none

/-- Parse the body of a JSON string literal, the opening quote already
consumed; returns the decoded content and the remaining input. -/
def jParseStr : Str → Option (Str × Str)
  | '"' :: rest => some ([], rest)
  | '\\' :: c :: rest =>
    match jEscChar c with
    | some e =>
      match jParseStr rest with
      | some (s, r) => some (e :: s, r)
      | Option.none => Option.none
    | Option.none => Option.none
  | c :: rest =>
    if c.val < 32 then Option.none
    else
      match jParseStr rest with
      | some (s, r) => some (c :: s, r)
      | Option.none => Option.none
  | [] => Option.none

/-- Take the maximal run of ASCII digits. -/
def jTakeDigits : Str → Str × Str
  | c :: rest =>
    if c.isDigit then
      ((c :: (jTakeDigits rest).1), (jTakeDigits rest).2)
    else ([], c :: rest)
  | [] => ([], [])

/-- Decimal value of an ASCII digit string. -/
def digitsToNat (ds : Str) : Nat :=
  ds.foldl (fun acc c => 10 * acc + (c.toNat - 48)) 0

/-- Parse an optional exponent part; returns whether one was present. -/
def jNumExp : Str → Option (Bool × Str)
  | c :: r =>
    if c = 'e' ∨ c = 'E' then
      let r5 := match r with
        | '+' :: r' => r'
        | '-' :: r' => r'
        | r' => r'
      match jTakeDigits r5 with
      | ([], _) => Option.none
      | (_, r6) => some (true, r6)
    else some (false, c :: r)
  | [] => some (false, [])

/-- Finish a number: integers become `PyVal.int`, numbers with a fraction
or exponent become `PyVal.float` carrying their literal text. -/
def jNumFinish (cs : Str) (neg : Bool) (intDs : Str) (isFloat : Bool) (r : Str) :
    Option (PyVal × Str) :=
  match jNumExp r with
  | Option.none => Option.none
  | some (hasExp, rest) =>
    if isFloat ∨ hasExp then
      some (PyVal.float (cs.take (cs.length - rest.length)), rest)
    else
      let n : Int := Int.ofNat (digitsToNat intDs)
      some (PyVal.int (if neg then -n else n), rest)

/-- Parse a JSON number (strict grammar: no leading zeros, a fraction or
exponent must have digits). -/
def jParseNumber (cs : Str) : Option (PyVal × Str) :=
  let neg := decide (cs.headD ' ' = '-')
  let cs1 := if neg then cs.tail else cs
  match jTakeDigits cs1 with
  | ([], _) => Option.none
  | (intDs, r1) =>
    if 1 < intDs.length ∧ intDs.headD '0' = '0' then Option.none
    else
      match r1 with
      | '.' :: r2 =>
        (match jTakeDigits r2 with
         | ([], _) => Option.none
         | (_, r3) => jNumFinish cs neg intDs true r3)
      | _ => jNumFinish cs neg intDs false r1

mutual

/-- Parse one JSON value.  Fuel decreases at every recursive call;
`pyJsonLoads` supplies more fuel than the input length, which any
successful parse stays under. -/
def jParseVal : Nat → Str → Option (PyVal × Str)
  | 0, _ => Option.none
  | fuel+1, cs =>
    match jSkipWs cs with
    | '\x7b' :: rest => jParseMembersStart fuel rest
    | '[' :: rest => jParseItemsStart fuel rest
    | '"' :: rest =>
      match jParseStr rest with
      | some (s, r) => some (PyVal.str s, r)
      | Option.none => Option.none
    | 't' :: 'r' :: 'u' :: 'e' :: rest => some (PyVal.bool true, rest)
    | 'f' :: 'a' :: 'l' :: 's' :: 'e' :: rest => some (PyVal.bool false, rest)
    | 'n' :: 'u' :: 'l' :: 'l' :: rest => some (PyVal.none, rest)
    | 'N' :: 'a' :: 'N' :: rest => some (PyVal.float "nan".data, rest)
    | 'I' :: 'n' :: 'f' :: 'i' :: 'n' :: 'i' :: 't' :: 'y' :: rest =>
      some (PyVal.float "inf".data, rest)
    | '-' :: 'I' :: 'n' :: 'f' :: 'i' :: 'n' :: 'i' :: 't' :: 'y' :: rest =>
      some (PyVal.float "-inf".data, rest)
    | rest => jParseNumber rest

/-- Object members directly after the `{`: an immediately closing `}` is
allowed here and nowhere else. -/
def jParseMembersStart : Nat → Str → Option (PyVal × Str)
  | 0, _ => Option.none
  | fuel+1, cs =>
    match jSkipWs cs with
    | '\x7d' :: rest => some (PyVal.dict [], rest)
    | cs' => jParseMembers fuel cs'

/-- One or more `"key": value` members separated by commas. -/
def jParseMembers : Nat → Str → Option (PyVal × Str)
  | 0, _ => Option.none
  | fuel+1, cs =>
    match jSkipWs cs with
    | '"' :: rest =>
      match jParseStr rest with
      | some (key, r1) =>
        (match jSkipWs r1 with
         | ':' :: r2 =>
           (match jParseVal fuel r2 with
            | some (v, r3) =>
              (match jSkipWs r3 with
               | ',' :: r4 =>
                 (match jParseMembers fuel r4 with
                  | some (PyVal.dict ms, r5) => some (PyVal.dict ((key, v) :: ms), r5)
                  | _ => Option.none)
               | '\x7d' :: r4 => some (PyVal.dict [(key, v)], r4)
               | _ => Option.none)
            | Option.none => Option.none)
         | _ => Option.none)
      | Option.none => Option.none
    | _ => Option.none

/-- Array items directly after the `[`: an immediately closing `]` is
allowed here and nowhere else. -/
def jParseItemsStart : Nat → Str → Option (PyVal × Str)
  | 0, _ => Option.none
  | fuel+1, cs =>
    match jSkipWs cs with
    | ']' :: rest => some (PyVal.list [], rest)
    | cs' => jParseItems fuel cs'

/-- One or more array items separated by commas. -/
def jParseItems : Nat → Str → Option (PyVal × Str)
  | 0, _ => Option.none
  | fuel+1, cs =>
    match jParseVal fuel cs with
    | some (v, r1) =>
      (match jSkipWs r1 with
       | ',' :: r2 =>
         (match jParseItems fuel r2 with
          | some (PyVal.list vs, r3) => some (PyVal.list (v :: vs), r3)
          | _ => Option.none)
       | ']' :: r2 => some (PyVal.list [v], r2)
       | _ => Option.none)
    | Option.none => Option.none

end

/-- `json.loads`: parse one value and require only whitespace after it. -/
def pyJsonLoads (s : Str) : Option PyVal :=
  match jParseVal (s.length + 1) s with
  | some (v, rest) => if jSkipWs rest = [] then some v else Option.none
  | Option.none => Option.none

/-! #### Models of `str.isnumeric` and `float` -/

/-- Decimal digits with their values: ASCII digits, plus the Arabic-Indic
digits as representatives of the non-ASCII decimal digits CPython
accepts.  (Unicode has further decimal digits; no theorem depends on the
ones left out.) -/
def pyDigitVal (c : Char) : Option Nat :=
  if c.isDigit then some (c.toNat - 48)
  else if '٠' ≤ c ∧ c ≤ '٩' then some (c.toNat - 0x660)
  else Option.none

/-- `str.isnumeric` on one character: decimal digits plus numeric
characters that are not digits (vulgar fractions, superscripts); the
explicit list covers the characters the theorems exercise. -/
def pyNumericChar (c : Char) : Bool :=
  (pyDigitVal c).isSome || ['½', '¼', '¾', '²', '³', '¹'].elem c

/-- `str.isnumeric`: non-empty and all characters numeric. -/
def pyIsNumeric (s : Str) : Bool :=
  !s.isEmpty && s.all pyNumericChar

/-- `str(float(s))` on the domain reachable from `theme_colorize`: strings
of decimal digits convert to the integer value rendered with a trailing
`.0`; numeric characters that are not decimal digits (such as `½`) make
`float` raise `ValueError`, modelled as `Option.none`.  (Rounding of
values above 2^53 is not modelled; no theorem depends on it.) -/
def pyFloatRepr (s : Str) : Option Str :=
  if s ≠ [] ∧ s.all (fun c => (pyDigitVal c).isSome) then
    some ((toString (s.foldl (fun acc c => 10 * acc + ((pyDigitVal c).getD 0)) 0)).data
          ++ ".0".data)
  else Option.none

/-- The indentation string `"  " * indent_level`. -/
def indentStr (indentLevel : Nat) : Str :=
  List.replicate (2 * indentLevel) ' '

mutual

/-- `Colorizer.theme_colorize`.  Fuel decreases at every recursive call
(the string branch recurses on a freshly parsed value, which no structural
measure of the input covers); running out of fuel and the uncaught
`ValueError` of `float(data)` surface as `Except.error`. -/
def themeColorize : Nat → PyVal → Theme → Nat → Except String Str
  | 0, _, _, _ => Except.error "recursion limit"
  | fuel+1, data, theme, indentLevel =>
    match data with
    | PyVal.dict entries =>
      (match renderEntries fuel entries theme indentLevel with
       | Except.error e => Except.error e
       | Except.ok middle =>
         Except.ok (colorize "\x7b".data (some "grey".data) Option.none ++ middle ++
           '\n' :: indentStr indentLevel ++
           colorize "\x7d".data (some "grey".data) Option.none))
    | PyVal.list items =>
      (match renderItems fuel items theme indentLevel with
       | Except.error e => Except.error e
       | Except.ok middle =>
         Except.ok (colorize "[".data (some "grey".data) Option.none ++ middle ++
           '\n' :: indentStr indentLevel ++
           colorize "]".data (some "grey".data) Option.none))
    | PyVal.str s =>
      match pyJsonLoads s with
      | some v => themeColorize fuel v theme (indentLevel + 1)
      | Option.none =>
        if pyIsNumeric s then
          match pyFloatRepr s with
          | some r => themeColorize fuel (PyVal.float r) theme indentLevel
          | Option.none => Except.error "ValueError: could not convert string to float"
        else if lowerL s = "true".data ∨ lowerL s = "false".data then
          themeColorize fuel (PyVal.bool (lowerL s = "true".data)) theme indentLevel
        else
          Except.ok (colorize ('"' :: s ++ ['"']) (some theme.string) Option.none)
    | PyVal.bool b =>
      Except.ok (colorize (if b then "True".data else "False".data)
            (some theme.bool) Option.none)
    | PyVal.int n => Except.ok (colorize (toString n).data (some theme.number) Option.none)
    | PyVal.float r => Except.ok (colorize r (some theme.number) Option.none)
    | PyVal.none => Except.ok (colorize "null".data (some theme.null) Option.none)
    | PyVal.other r => Except.ok (colorize r (some theme.other) Option.none)

/-- The dict loop of `theme_colorize`: for every entry emit
`"\n" + indent + "  \"" + colorized key + "\" : "`, the recursively
rendered value at the next indent level, and a comma. -/
def renderEntries : Nat → List (Str × PyVal) → Theme → Nat → Except String Str
  | _, [], _, _ => Except.ok []
  | 0, _ :: _, _, _ => Except.error "recursion limit"
  | fuel+1, (key, value) :: rest, theme, indentLevel =>
    (match themeColorize fuel value theme (indentLevel + 1) with
     | Except.error e => Except.error e
     | Except.ok rv =>
       (match renderEntries fuel rest theme indentLevel with
        | Except.error e => Except.error e
        | Except.ok rTail =>
          Except.ok ('\n' :: indentStr indentLevel ++ "  ".data ++
            '"' :: colorize key (some theme.key) Option.none ++ "\" : ".data ++
            rv ++ colorize ",".data (some "grey".data) Option.none ++ rTail)))

/-- The list loop of `theme_colorize`: for every item emit
`"\n" + indent + "  "`, the recursively rendered item at the next indent
level, and a comma. -/
def renderItems : Nat → List PyVal → Theme → Nat → Except String Str
  | _, [], _, _ => Except.ok []
  | 0, _ :: _, _, _ => Except.error "recursion limit"
  | fuel+1, item :: rest, theme, indentLevel =>
    (match themeColorize fuel item theme (indentLevel + 1) with
     | Except.error e => Except.error e
     | Except.ok ri =>
       (match renderItems fuel rest theme indentLevel with
        | Except.error e => Except.error e
        | Except.ok rTail =>
          Except.ok ('\n' :: indentStr indentLevel ++ "  ".data ++
            ri ++ colorize ",".data (some "grey".data) Option.none ++ rTail)))

end

/-! ## Helper lemmas -/

theorem lookupS_mem {key : Str} {v : AnsiColor} {l : List (Str × AnsiColor)}
    (h : lookupS key l = some v) : (key, v) ∈ l := by
  induction l with
  | nil => simp [lookupS] at h
  | cons p rest ih =>
    obtain ⟨k, w⟩ := p
    rw [lookupS] at h
    by_cases hk : key = k
    · rw [if_pos hk] at h
      injection h with h
      subst hk; subst h
      exact List.mem_cons_self _ _
    · rw [if_neg hk] at h
      exact List.mem_cons_of_mem _ (ih h)

/-- Every foreground resolution is empty or the escape string of a
built-in palette entry. -/
theorem resolveColor_cases (color : Option Str) :
    resolveColor color = [] ∨
      ∃ p ∈ ansiColors, resolveColor color = ansiStr ⟨p.2, p.1⟩ := by
  cases color with
  | none => exact Or.inl rfl
  | some c =>
    rw [resolveColor, getColorCode]
    cases h : lookupS (lowerL c) colorizerColors with
    | none => exact Or.inl rfl
    | some col =>
      refine Or.inr ?_
      have hm := lookupS_mem h
      rw [colorizerColors] at hm
      obtain ⟨p, hp, hpe⟩ := List.mem_map.mp hm
      refine ⟨p, hp, ?_⟩
      obtain ⟨-, h2⟩ := Prod.mk.injEq .. ▸ hpe
      rw [← h2]

/-- Every background resolution is empty or the escape string of a
built-in background palette entry. -/
theorem resolveBg_cases (backgroundColor : Option Str) :
    resolveBg backgroundColor = [] ∨
      ∃ q ∈ ansiBgColors, resolveBg backgroundColor = ansiStr ⟨q.2, q.1⟩ := by
  cases backgroundColor with
  | none => exact Or.inl rfl
  | some b =>
    rw [resolveBg, getBgColorCode]
    cases h : lookupS (lowerL b) colorizerBgColors with
    | none => exact Or.inl rfl
    | some col =>
      refine Or.inr ?_
      have hm := lookupS_mem h
      rw [colorizerBgColors] at hm
      obtain ⟨q, hq, hqe⟩ := List.mem_map.mp hm
      refine ⟨q, hq, ?_⟩
      obtain ⟨-, h2⟩ := Prod.mk.injEq .. ▸ hqe
      rw [← h2]

theorem ansiColors_tag_facts :
    ∀ p ∈ ansiColors,
      GoodTag (ansiStr ⟨p.2, p.1⟩) ∧
      extractCode (ansiStr ⟨p.2, p.1⟩) = (toString p.2).data ∧
      esc ∉ (toString p.2).data := by decide

theorem ansiBgColors_tag_facts :
    ∀ q ∈ ansiBgColors,
      GoodTag (ansiStr ⟨q.2, q.1⟩) ∧
      extractCode (ansiStr ⟨q.2, q.1⟩) = (toString q.2).data ∧
      esc ∉ (toString q.2).data := by decide

set_option maxHeartbeats 1000000 in
theorem composite_tag_facts :
    ∀ p ∈ ansiColors, ∀ q ∈ ansiBgColors,
      GoodTag (mkStartTag (ansiStr ⟨p.2, p.1⟩) (ansiStr ⟨q.2, q.1⟩)) := by decide

/-- Whenever at least one color resolves, the start tag `colorize` wraps
the text in is a `GoodTag`. -/
theorem mkStartTag_good {color backgroundColor : Option Str}
    (h : ¬(resolveColor color = [] ∧ resolveBg backgroundColor = [])) :
    GoodTag (mkStartTag (resolveColor color) (resolveBg backgroundColor)) := by
  rcases resolveColor_cases color with hc | ⟨p, hp, hc⟩ <;>
    rcases resolveBg_cases backgroundColor with hb | ⟨q, hq, hb⟩
  · exact absurd ⟨hc, hb⟩ h
  · have hbg := (ansiBgColors_tag_facts q hq).1
    rw [hc, hb]
    simpa [mkStartTag] using hbg
  · have hfg := (ansiColors_tag_facts p hp).1
    have hne : ansiStr ⟨p.2, p.1⟩ ≠ [] := by
      intro he
      rw [he] at hfg
      simp [GoodTag] at hfg
    rw [hc, hb]
    simpa [mkStartTag, hne] using hfg
  · have := composite_tag_facts p hp q hq
    have hnef : ansiStr ⟨p.2, p.1⟩ ≠ [] := by
      have hfg := (ansiColors_tag_facts p hp).1
      intro he
      rw [he] at hfg
      simp [GoodTag] at hfg
    have hneb : ansiStr ⟨q.2, q.1⟩ ≠ [] := by
      have hbg := (ansiBgColors_tag_facts q hq).1
      intro he
      rw [he] at hbg
      simp [GoodTag] at hbg
    rw [hc, hb]
    exact this

/-- A `GoodTag` never ends with the reset sequence. -/
theorem GoodTag.noResetSuffix {t : Str} (h : GoodTag t) : ¬ resetL <:+ t := by
  rintro ⟨w, hw⟩
  cases w with
  | nil =>
    exact h.2.2.2 (by simpa using hw.symm)
  | cons c w' =>
    apply h.2.2.1
    rw [← hw]
    simp [resetL, esc]

/-- A non-empty suffix determines the last element. -/
theorem getLast?_of_suffix {u v : Str} (h : u <:+ v) (hu : u ≠ []) :
    v.getLast? = u.getLast? := by
  obtain ⟨w, rfl⟩ := h
  rw [List.getLast?_append]
  obtain ⟨a, ha⟩ := Option.isSome_iff_exists.mp (List.getLast?_isSome.mpr hu)
  rw [ha, Option.or_some]

/-- A prefix that fits inside the first summand of an append is a prefix
of that summand. -/
theorem prefix_of_append_of_length_le {x u v : Str}
    (h : x <+: u ++ v) (hle : x.length ≤ u.length) : x <+: u := by
  rw [List.prefix_iff_eq_take] at h ⊢
  rw [h, List.take_append_eq_append_take, Nat.sub_eq_zero_of_le hle]
  simp

/-- A suffix that fits inside the second summand of an append is a suffix
of that summand. -/
theorem suffix_of_append_of_length_le {x u v : Str}
    (h : x <:+ u ++ v) (hle : x.length ≤ v.length) : x <:+ v := by
  rw [← List.reverse_prefix] at h ⊢
  rw [List.reverse_append] at h
  exact prefix_of_append_of_length_le h (by simpa using hle)

/-- Suffixes of an append with a final singleton. -/
theorem suffix_snoc_iff {x m : Str} {y c : Char} :
    (x ++ [y]) <:+ (m ++ [c]) ↔ y = c ∧ x <:+ m := by
  constructor
  · intro h
    have h' := List.reverse_prefix.mpr h
    simp only [List.reverse_append, List.reverse_cons, List.reverse_nil,
      List.nil_append, List.singleton_append] at h'
    rw [List.cons_prefix_cons] at h'
    exact ⟨h'.1, List.reverse_prefix.mp h'.2⟩
  · rintro ⟨rfl, ⟨w, rfl⟩⟩
    exact ⟨w, by simp⟩

/-- A singleton suffix of an append with a final singleton. -/
theorem singleton_suffix_snoc {m : Str} {y c : Char}
    (h : [y] <:+ (m ++ [c])) : y = c := by
  have : (([] : Str) ++ [y]) <:+ (m ++ [c]) := by simpa using h
  exact (suffix_snoc_iff.mp this).1

/-- Splitting a prefix of an append at the boundary. -/
theorem prefix_append_split {l a b : Str} (h : l <+: a ++ b) :
    l <+: a ∨ (a <+: l ∧ l.drop a.length <+: b) := by
  induction a generalizing l with
  | nil =>
    right
    simpa using h
  | cons c a' ih =>
    cases l with
    | nil => exact Or.inl ( List.nil_prefix)
    | cons d l' =>
      rw [List.cons_append, List.cons_prefix_cons] at h
      obtain ⟨rfl, h2⟩ := h
      rcases ih h2 with h3 | ⟨h3, h4⟩
      · exact Or.inl (List.cons_prefix_cons.mpr ⟨rfl, h3⟩)
      · exact Or.inr ⟨List.cons_prefix_cons.mpr ⟨rfl, h3⟩, by simpa using h4⟩

/-- Splitting a suffix of an append at the boundary. -/
theorem suffix_append_split {t a b : Str} (h : t <:+ a ++ b) :
    (∃ a', a' <:+ a ∧ t = a' ++ b) ∨ t <:+ b := by
  induction a with
  | nil => exact Or.inr (by simpa using h)
  | cons c a' ih =>
    rw [List.cons_append, List.suffix_cons_iff] at h
    rcases h with rfl | h
    · exact Or.inl ⟨c :: a', List.suffix_refl _, by simp⟩
    · rcases ih h with ⟨a'', h1, rfl⟩ | h1
      · exact Or.inl ⟨a'', h1.trans (List.suffix_cons _ _), rfl⟩
      · exact Or.inr h1

/-! ## The reset-repair scan -/

/-- Invariant carried through the `_process_text` scan: the output built
so far (`m`) does not end in the reset sequence, and no proper prefix of
the reset sequence dangling at the end of `m` is completed by the
remaining input.  The conclusion: the finished output never ends in the
reset sequence. -/
theorem processText_no_trailing {tag : Str} (hg : GoodTag tag) (s : Str) :
    ∀ m : Str,
      ¬ resetL <:+ m →
      (['\x1b'] <:+ m → ¬ ['[', '0', 'm'] <+: s) →
      (['\x1b', '['] <:+ m → ¬ ['0', 'm'] <+: s) →
      (['\x1b', '[', '0'] <:+ m → ¬ ['m'] <+: s) →
      ¬ resetL <:+ (m ++ processText tag s) := by
  have hlast := hg.2.1
  have hlen := hg.1
  induction s using processText.induct tag with
  | case1 rest ih =>
    intro m h0 h1 h2 h3
    rw [processText]
    have hassoc :
        m ++ (resetL ++ tag ++ processText tag rest) =
          (m ++ resetL ++ tag) ++ processText tag rest := by
      simp
    rw [hassoc]
    have htail : ∀ x : Str, x ≠ [] → x.length ≤ tag.length →
        x <:+ (m ++ resetL ++ tag) → x <:+ tag := by
      intro x hx hxl hxs
      rw [List.append_assoc] at hxs
      exact suffix_of_append_of_length_le
        (suffix_of_append_of_length_le hxs (by simp [resetL]; omega)) hxl
    refine ih (m ++ resetL ++ tag) ?_ ?_ ?_ ?_
    · intro hsuf
      exact hg.noResetSuffix (htail _ (by simp [resetL]) (by simp [resetL]; omega) hsuf)
    · intro hsuf
      have := getLast?_of_suffix (htail _ (by simp) (by simp; omega) hsuf) (by simp)
      simp_all
    · intro hsuf
      have := getLast?_of_suffix (htail _ (by simp) (by simp; omega) hsuf) (by simp)
      simp_all
    · intro hsuf
      have := getLast?_of_suffix (htail _ (by simp) (by simp; omega) hsuf) (by simp)
      simp_all
  | case2 c rest hne ih =>
    intro m h0 h1 h2 h3
    rw [processText.eq_2 tag c rest hne, List.append_cons]
    refine ih (m ++ [c]) ?_ ?_ ?_ ?_
    · intro hsuf
      have hsplit : ((['\x1b', '[', '0'] : Str) ++ ['m']) <:+ (m ++ [c]) := hsuf
      obtain ⟨hcm, hm3⟩ := suffix_snoc_iff.mp hsplit
      exact h3 hm3 (List.cons_prefix_cons.mpr ⟨hcm, List.nil_prefix⟩)
    · intro hsuf hpre
      have hce := singleton_suffix_snoc hsuf
      obtain ⟨r, hr⟩ := hpre
      exact hne r hce.symm hr.symm
    · intro hsuf hpre
      have hsplit : ((['\x1b'] : Str) ++ ['[']) <:+ (m ++ [c]) := hsuf
      obtain ⟨hcb, hm1⟩ := suffix_snoc_iff.mp hsplit
      obtain ⟨r, hr⟩ := hpre
      refine h1 hm1 ⟨r, ?_⟩
      rw [← hcb, ← hr]
      rfl
    · intro hsuf hpre
      have hsplit : ((['\x1b', '['] : Str) ++ ['0']) <:+ (m ++ [c]) := hsuf
      obtain ⟨hc0, hm2⟩ := suffix_snoc_iff.mp hsplit
      obtain ⟨r, hr⟩ := hpre
      refine h2 hm2 ⟨r, ?_⟩
      rw [← hc0, ← hr]
      rfl
  | case3 =>
    intro m h0 _ _ _
    simpa [processText] using h0

/-- The final output of `colorize` with a resolved color ends in exactly
one reset sequence: what precedes the final reset does not itself end in
the reset sequence. -/
theorem tag_processText_no_reset_suffix {tag : Str} (hg : GoodTag tag) (s : Str) :
    ¬ resetL <:+ (tag ++ processText tag s) := by
  have hlast := hg.2.1
  refine processText_no_trailing hg s tag hg.noResetSuffix ?_ ?_ ?_
  · intro hsuf
    have := getLast?_of_suffix hsuf (by simp)
    simp_all
  · intro hsuf
    have := getLast?_of_suffix hsuf (by simp)
    simp_all
  · intro hsuf
    have := getLast?_of_suffix hsuf (by simp)
    simp_all

theorem joinSep_cons_head (sep : Str) (c : Char) (p : Str) (ps : List Str) :
    joinSep sep ((c :: p) :: ps) = c :: joinSep sep (p :: ps) := by
  cases ps <;> simp [joinSep]

/-- Joining the fragments with the reset sequence itself reproduces the
input: `splitResetP` is a genuine split of the text. -/
theorem joinSep_splitResetP (s : Str) :
    joinSep resetL ((splitResetP s).1 :: (splitResetP s).2) = s := by
  induction s using splitResetP.induct with
  | case1 rest ih =>
    simp only [splitResetP, joinSep]
    rw [ih]
    rfl
  | case2 c rest h ih =>
    simp only [splitResetP, joinSep_cons_head, ih]
  | case3 => simp [splitResetP, joinSep]

/-- What the scan computes: the fragments joined with
`reset ++ startTag` between consecutive fragments — each reset occurrence
of the input is re-emitted followed immediately by the start tag. -/
theorem processText_eq_joinSep (tag : Str) (s : Str) :
    processText tag s = joinSep (resetL ++ tag) ((splitResetP s).1 :: (splitResetP s).2) := by
  induction s using splitResetP.induct with
  | case1 rest ih =>
    rw [processText, ih]
    simp only [splitResetP, joinSep]
    simp
  | case2 c rest h ih =>
    have h' : ∀ rest1 : List Char, c = '\x1b' → rest = '[' :: '0' :: 'm' :: rest1 → False := by
      intro r hc hr
      exact h r hc hr
    rw [processText.eq_2 tag c rest h', ih]
    simp only [splitResetP, joinSep_cons_head]
  | case3 => simp [splitResetP, processText, joinSep]

/-- The first fragment of the split is a prefix of the input. -/
theorem splitResetP_head_leads (s : Str) : (splitResetP s).1 <+: s := by
  induction s using splitResetP.induct with
  | case1 rest ih => simp [splitResetP]
  | case2 c rest h ih =>
    rw [splitResetP.eq_2 c rest h]
    exact List.cons_prefix_cons.mpr ⟨rfl, ih⟩
  | case3 => simp [splitResetP]

/-- No fragment of the split contains the reset sequence. -/
theorem splitResetP_no_reset (s : Str) :
    ∀ p ∈ (splitResetP s).1 :: (splitResetP s).2, ¬ resetL <:+: p := by
  induction s using splitResetP.induct with
  | case1 rest ih =>
    intro p hp
    simp only [splitResetP] at hp
    rcases List.mem_cons.mp hp with rfl | hp
    · intro hinf
      have := hinf.length_le
      simp [resetL] at this
    · exact ih p hp
  | case2 c rest h ih =>
    intro p hp
    rw [splitResetP.eq_2 c rest h] at hp
    simp only at hp
    rcases List.mem_cons.mp hp with rfl | hp
    · intro hinf
      rcases List.infix_cons_iff.mp hinf with hpre | hinf'
      · have hpre' : resetL <+: c :: rest :=
          hpre.trans (List.cons_prefix_cons.mpr ⟨rfl, splitResetP_head_leads rest⟩)
        obtain ⟨r, hr⟩ := hpre'
        have hr2 : '\x1b' :: '[' :: '0' :: 'm' :: r = c :: rest := hr
        injection hr2 with hc hrest
        exact h r hc.symm hrest.symm
      · exact ih _ (List.mem_cons_self _ _) hinf'
    · exact ih p (List.mem_cons_of_mem _ hp)
  | case3 =>
    intro p hp
    rcases List.mem_cons.mp hp with rfl | hp
    · intro hinf
      have := hinf.length_le
      simp [resetL, splitResetP] at this
    · simp [splitResetP] at hp

/-- On text containing no reset sequence the scan is the identity. -/
theorem processText_of_no_reset {tag : Str} {s : Str} (h : ¬ resetL <:+: s) :
    processText tag s = s := by
  induction s using processText.induct tag with
  | case1 rest ih =>
    exact absurd (List.infix_iff_prefix_suffix.mpr
      ⟨'\x1b' :: '[' :: '0' :: 'm' :: rest, ⟨rest, rfl⟩, List.suffix_refl _⟩) h
  | case2 c rest hne ih =>
    rw [processText.eq_2 tag c rest hne, ih (fun hi => h (List.infix_cons hi))]
  | case3 => rfl

/-- Scanning `u ++ reset ++ v` where `u` is reset-free: the scan copies
`u`, re-emits the reset followed by the start tag, and continues on `v`.
(The reset sequence has no nontrivial overlap with itself, so the
occurrence at the boundary is found exactly there.) -/
theorem processText_around_reset {tag : Str} {u : Str} (hu : ¬ resetL <:+: u) (v : Str) :
    processText tag (u ++ resetL ++ v) = u ++ resetL ++ tag ++ processText tag v := by
  induction u with
  | nil =>
    rw [show (([] : Str) ++ resetL ++ v) = '\x1b' :: '[' :: '0' :: 'm' :: v from rfl,
      processText]
    simp
  | cons c u' ih =>
    have hu' : ¬ resetL <:+: u' := fun hi => hu (List.infix_cons hi)
    have hcond : ∀ rest1 : List Char,
        c = '\x1b' → (u' ++ resetL ++ v) = '[' :: '0' :: 'm' :: rest1 → False := by
      intro r hc hr
      subst hc
      rcases u' with _ | ⟨c1, u2⟩
      · have hr1 : '\x1b' :: ('[' :: '0' :: 'm' :: v) = '[' :: '0' :: 'm' :: r := hr
        injection hr1 with h1 _
        exact absurd h1 (by decide)
      · have hr1 : c1 :: (u2 ++ resetL ++ v) = '[' :: '0' :: 'm' :: r := by simpa using hr
        injection hr1 with h1 hr2
        subst h1
        rcases u2 with _ | ⟨c2, u3⟩
        · have hr3 : '\x1b' :: ('[' :: '0' :: 'm' :: v) = '0' :: 'm' :: r := by
            simpa [resetL] using hr2
          injection hr3 with h2 _
          exact absurd h2 (by decide)
        · have hr3 : c2 :: (u3 ++ resetL ++ v) = '0' :: 'm' :: r := by simpa using hr2
          injection hr3 with h2 hr4
          subst h2
          rcases u3 with _ | ⟨c3, u4⟩
          · have hr5 : '\x1b' :: ('[' :: '0' :: 'm' :: v) = 'm' :: r := by
              simpa [resetL] using hr4
            injection hr5 with h3 _
            exact absurd h3 (by decide)
          · have hr5 : c3 :: (u4 ++ resetL ++ v) = 'm' :: r := by simpa using hr4
            injection hr5 with h3 _
            subst h3
            exact hu ⟨[], u4, rfl⟩
    have hstep : processText tag ((c :: u') ++ resetL ++ v) =
        c :: processText tag (u' ++ resetL ++ v) := by
      rw [show ((c :: u') ++ resetL ++ v) = c :: (u' ++ resetL ++ v) from by simp]
      exact processText.eq_2 tag c _ hcond
    rw [hstep, ih hu']
    simp

/-- The first characters of a cons-shaped prefix relation must agree. -/
theorem cons_prefix_head_eq {a b : Char} {l₁ l₂ : Str} (hp : a :: l₁ <+: b :: l₂) :
    a = b :=
  (List.cons_prefix_cons.mp hp).1

/-- The reset sequence is not a prefix of a green/red-style tag followed
by anything: the third characters disagree. -/
theorem not_reset_prefix_tag3 (l : Str) : ¬ resetL <+: ('\x1b' :: '[' :: '3' :: l) := by
  intro h
  have h' : ('\x1b' :: '[' :: '0' :: ['m'] : Str) <+: ('\x1b' :: '[' :: '3' :: l) := h
  obtain ⟨-, h2⟩ := List.cons_prefix_cons.mp h'
  obtain ⟨-, h3⟩ := List.cons_prefix_cons.mp h2
  obtain ⟨h4, -⟩ := List.cons_prefix_cons.mp h3
  exact absurd h4 (by decide)

/-- Wrapping a reset-free text in the green tag introduces no reset
occurrence before the explicit trailing one. -/
theorem noReset_pre_green_mid {pre mid : Str}
    (hpre : ¬ resetL <:+: pre) (hmid : ¬ resetL <:+: mid) :
    ¬ resetL <:+: (pre ++ ['\x1b', '[', '3', '2', 'm'] ++ mid) := by
  intro hinf
  obtain ⟨t, hpt, hts⟩ := List.infix_iff_prefix_suffix.mp hinf
  rw [List.append_assoc] at hts
  rcases suffix_append_split hts with ⟨ps, hps, rfl⟩ | ht
  · rcases prefix_append_split hpt with h1 | ⟨h1, h2⟩
    · exact hpre (List.infix_iff_prefix_suffix.mpr ⟨ps, h1, hps⟩)
    · have hlen : ps.length ≤ 4 := by simpa [resetL] using h1.length_le
      have hpe := List.prefix_iff_eq_take.mp h1
      have hk : ps.length = 0 ∨ ps.length = 1 ∨ ps.length = 2 ∨
          ps.length = 3 ∨ ps.length = 4 := by omega
      rcases hk with hk | hk | hk | hk | hk <;> rw [hk] at h2 hpe
      · exact not_reset_prefix_tag3 ('2' :: 'm' :: mid) (by simpa [resetL] using h2)
      · have h2' : (['[', '0', 'm'] : Str) <+: '\x1b' :: '[' :: '3' :: '2' :: 'm' :: mid := by
          simpa [resetL] using h2
        exact absurd (cons_prefix_head_eq h2') (by decide)
      · have h2' : (['0', 'm'] : Str) <+: '\x1b' :: '[' :: '3' :: '2' :: 'm' :: mid := by
          simpa [resetL] using h2
        exact absurd (cons_prefix_head_eq h2') (by decide)
      · have h2' : (['m'] : Str) <+: '\x1b' :: '[' :: '3' :: '2' :: 'm' :: mid := by
          simpa [resetL] using h2
        exact absurd (cons_prefix_head_eq h2') (by decide)
      · refine hpre (List.infix_iff_prefix_suffix.mpr ⟨ps, ?_, hps⟩)
        rw [show List.take 4 resetL = resetL from rfl] at hpe
        rw [hpe]
  · rcases suffix_append_split ht with ⟨gs, hgs, rfl⟩ | ht2
    · simp only [List.suffix_cons_iff, List.suffix_nil] at hgs
      rcases hgs with rfl | rfl | rfl | rfl | rfl | rfl
      · exact not_reset_prefix_tag3 ('2' :: 'm' :: mid) (by simpa using hpt)
      · have hpt' : (['\x1b', '[', '0', 'm'] : Str) <+: '[' :: '3' :: '2' :: 'm' :: mid := by
          simpa [resetL] using hpt
        exact absurd (cons_prefix_head_eq hpt') (by decide)
      · have hpt' : (['\x1b', '[', '0', 'm'] : Str) <+: '3' :: '2' :: 'm' :: mid := by
          simpa [resetL] using hpt
        exact absurd (cons_prefix_head_eq hpt') (by decide)
      · have hpt' : (['\x1b', '[', '0', 'm'] : Str) <+: '2' :: 'm' :: mid := by
          simpa [resetL] using hpt
        exact absurd (cons_prefix_head_eq hpt') (by decide)
      · have hpt' : (['\x1b', '[', '0', 'm'] : Str) <+: 'm' :: mid := by
          simpa [resetL] using hpt
        exact absurd (cons_prefix_head_eq hpt') (by decide)
      · exact hmid (List.infix_iff_prefix_suffix.mpr
          ⟨mid, by simpa using hpt, List.suffix_refl _⟩)
    · exact hmid (List.infix_iff_prefix_suffix.mpr ⟨t, hpt, ht2⟩)

/-- A successful foreground lookup comes from a built-in palette entry. -/
theorem mem_of_lookup_colors {cn : Str} {fg : AnsiColor}
    (hc : lookupS (lowerL cn) colorizerColors = some fg) :
    ∃ p ∈ ansiColors, fg = ⟨p.2, p.1⟩ := by
  have hm := lookupS_mem hc
  rw [colorizerColors] at hm
  obtain ⟨p, hp, hpe⟩ := List.mem_map.mp hm
  refine ⟨p, hp, ?_⟩
  obtain ⟨-, h2⟩ := Prod.mk.injEq .. ▸ hpe
  rw [← h2]

/-- A successful background lookup comes from a built-in palette entry. -/
theorem mem_of_lookup_bgColors {bn : Str} {bg : AnsiColor}
    (hb : lookupS (lowerL bn) colorizerBgColors = some bg) :
    ∃ q ∈ ansiBgColors, bg = ⟨q.2, q.1⟩ := by
  have hm := lookupS_mem hb
  rw [colorizerBgColors] at hm
  obtain ⟨q, hq, hqe⟩ := List.mem_map.mp hm
  refine ⟨q, hq, ?_⟩
  obtain ⟨-, h2⟩ := Prod.mk.injEq .. ▸ hqe
  rw [← h2]

/-! ## The claims -/

/-- C1: Nested-reset repair.  Whenever `colorize` resolves at least one
color, the output is the start tag, the input rewritten so that every
embedded occurrence of the reset sequence is followed immediately by a
re-emission of the start tag (the fragments between resets joined by
`reset ++ tag` reconstruct the input when joined by `reset` alone, and no
fragment contains a reset), and one trailing reset sequence not preceded
by another reset; consequently
`colorize(pre ++ colorize(mid, "green") ++ post, "red")` re-opens the red
tag between the inner reset and `post`. -/
theorem colorize_nested_reset_repair (text : Str) (color backgroundColor : Option Str)
    (h : ¬(resolveColor color = [] ∧ resolveBg backgroundColor = [])) :
    colorize text color backgroundColor =
      mkStartTag (resolveColor color) (resolveBg backgroundColor) ++
        joinSep (resetL ++ mkStartTag (resolveColor color) (resolveBg backgroundColor))
          ((splitResetP text).1 :: (splitResetP text).2) ++ resetL
    ∧ joinSep resetL ((splitResetP text).1 :: (splitResetP text).2) = text
    ∧ (∀ p ∈ (splitResetP text).1 :: (splitResetP text).2, ¬ resetL <:+: p)
    ∧ (∃ q, colorize text color backgroundColor = q ++ resetL ∧ ¬ resetL <:+ q)
    ∧ (∀ pre mid post : Str,
        ¬ resetL <:+: pre → ¬ resetL <:+: mid → ¬ resetL <:+: post →
        colorize (pre ++ colorize mid (some "green".data) Option.none ++ post)
            (some "red".data) Option.none =
          ['\x1b', '[', '3', '1', 'm'] ++ pre ++ ['\x1b', '[', '3', '2', 'm'] ++ mid ++
            resetL ++ ['\x1b', '[', '3', '1', 'm'] ++ post ++ resetL) := by
  have hcz : colorize text color backgroundColor =
      mkStartTag (resolveColor color) (resolveBg backgroundColor) ++
        processText (mkStartTag (resolveColor color) (resolveBg backgroundColor)) text ++
        resetL := by
    simp only [colorize]
    rw [if_neg h]
  refine ⟨?_, joinSep_splitResetP text, splitResetP_no_reset text, ?_, ?_⟩
  · rw [hcz, processText_eq_joinSep]
  · exact ⟨_, by rw [hcz], tag_processText_no_reset_suffix (mkStartTag_good h) text⟩
  · intro pre mid post hpre hmid hpost
    have hinner : colorize mid (some "green".data) Option.none =
        ['\x1b', '[', '3', '2', 'm'] ++ mid ++ resetL := by
      simp only [colorize]
      rw [if_neg (by decide)]
      rw [show mkStartTag (resolveColor (some "green".data)) (resolveBg Option.none) =
            ['\x1b', '[', '3', '2', 'm'] from by decide]
      rw [processText_of_no_reset hmid]
    rw [hinner]
    simp only [colorize]
    rw [if_neg (by decide)]
    rw [show mkStartTag (resolveColor (some "red".data)) (resolveBg Option.none) =
          ['\x1b', '[', '3', '1', 'm'] from by decide]
    have hX : pre ++ (['\x1b', '[', '3', '2', 'm'] ++ mid ++ resetL) ++ post =
        (pre ++ ['\x1b', '[', '3', '2', 'm'] ++ mid) ++ resetL ++ post := by simp
    rw [hX, processText_around_reset (noReset_pre_green_mid hpre hmid) post,
        processText_of_no_reset hpost]
    simp

theorem colorize_nested_reset_repair_witness :
    ¬(resolveColor (some "red".data) = [] ∧ resolveBg Option.none = []) ∧
    (∃ q, colorize "a\x1b[0mb".data (some "red".data) Option.none = q ++ resetL ∧
      ¬ resetL <:+ q) ∧
    colorize ("x".data ++ colorize "y".data (some "green".data) Option.none ++ "z".data)
        (some "red".data) Option.none =
      ['\x1b', '[', '3', '1', 'm'] ++ "x".data ++ ['\x1b', '[', '3', '2', 'm'] ++ "y".data ++
        resetL ++ ['\x1b', '[', '3', '1', 'm'] ++ "z".data ++ resetL := by
  refine ⟨by decide, ?_, ?_⟩
  · exact (colorize_nested_reset_repair "a\x1b[0mb".data (some "red".data) Option.none
      (by decide)).2.2.2.1
  · exact (colorize_nested_reset_repair [] (some "red".data) Option.none
      (by decide)).2.2.2.2 "x".data "y".data "z".data (by decide) (by decide) (by decide)

/-- C2: Identity on uncolored input.  When neither the foreground nor the
background argument resolves to a palette entry (absent or unknown
names), `colorize` returns the text exactly unchanged. -/
theorem colorize_identity_uncolored (text : Str) (color backgroundColor : Option Str)
    (hc : resolveColor color = []) (hb : resolveBg backgroundColor = []) :
    colorize text color backgroundColor = text := by
  simp only [colorize]
  rw [if_pos ⟨hc, hb⟩]

theorem colorize_identity_uncolored_witness :
    (resolveColor (some "sparkle".data) = [] ∧ resolveBg (some "bg_red".data) = [] ∧
      colorize "hello".data (some "sparkle".data) (some "bg_red".data) = "hello".data) ∧
    (resolveColor Option.none = [] ∧ resolveBg Option.none = [] ∧
      colorize "hello".data Option.none Option.none = "hello".data) :=
  ⟨⟨by decide, by decide,
      colorize_identity_uncolored _ _ _ (by decide) (by decide)⟩,
    ⟨by decide, by decide,
      colorize_identity_uncolored _ _ _ (by decide) (by decide)⟩⟩

/-- C3: Composite escape for foreground plus background.  When both names
resolve, the span is opened by the single composite sequence
`ESC[<fgCode>;<bgCode>m` (containing exactly one escape character), not by
two consecutive escape sequences. -/
theorem colorize_composite_escape (text : Str) (cn bn : Str) (fg bg : AnsiColor)
    (hc : lookupS (lowerL cn) colorizerColors = some fg)
    (hb : lookupS (lowerL bn) colorizerBgColors = some bg) :
    mkStartTag (resolveColor (some cn)) (resolveBg (some bn)) =
      "\x1b[".data ++ (toString fg.code).data ++ ";".data ++ (toString bg.code).data ++
        "m".data
    ∧ (mkStartTag (resolveColor (some cn)) (resolveBg (some bn))).count esc = 1
    ∧ colorize text (some cn) (some bn) =
        mkStartTag (resolveColor (some cn)) (resolveBg (some bn)) ++
          processText (mkStartTag (resolveColor (some cn)) (resolveBg (some bn))) text ++
          resetL := by
  obtain ⟨p, hp, hfg⟩ := mem_of_lookup_colors hc
  obtain ⟨q, hq, hbg⟩ := mem_of_lookup_bgColors hb
  have hrc : resolveColor (some cn) = ansiStr fg := by
    rw [resolveColor, getColorCode, hc]
  have hrb : resolveBg (some bn) = ansiStr bg := by
    rw [resolveBg, getBgColorCode, hb]
  have hfgne : ansiStr fg ≠ [] := by
    rw [hfg]
    have := ((ansiColors_tag_facts p hp).1).1
    intro he
    rw [he] at this
    simp at this
  have hbgne : ansiStr bg ≠ [] := by
    rw [hbg]
    have := ((ansiBgColors_tag_facts q hq).1).1
    intro he
    rw [he] at this
    simp at this
  have htag : mkStartTag (resolveColor (some cn)) (resolveBg (some bn)) =
      "\x1b[".data ++ (toString fg.code).data ++ ";".data ++ (toString bg.code).data ++
        "m".data := by
    rw [hrc, hrb, mkStartTag, if_pos ⟨hfgne, hbgne⟩]
    rw [show extractCode (ansiStr fg) = (toString fg.code).data from by
      rw [hfg]; exact (ansiColors_tag_facts p hp).2.1]
    rw [show extractCode (ansiStr bg) = (toString bg.code).data from by
      rw [hbg]; exact (ansiBgColors_tag_facts q hq).2.1]
  refine ⟨htag, ?_, ?_⟩
  · rw [htag]
    have h1 : esc ∉ (toString fg.code).data := by
      rw [hfg] at *
      exact (ansiColors_tag_facts p hp).2.2
    have h2 : esc ∉ (toString bg.code).data := by
      rw [hbg] at *
      exact (ansiBgColors_tag_facts q hq).2.2
    simp only [List.count_append]
    rw [List.count_eq_zero.mpr h1, List.count_eq_zero.mpr h2]
    decide
  · simp only [colorize]
    rw [if_neg (by rw [hrc]; exact fun hcontra => hfgne hcontra.1)]

theorem colorize_composite_escape_witness :
    lookupS (lowerL "red".data) colorizerColors = some ⟨31, "red".data⟩ ∧
    lookupS (lowerL "blue".data) colorizerBgColors = some ⟨44, "bg_blue".data⟩ ∧
    mkStartTag (resolveColor (some "red".data)) (resolveBg (some "blue".data)) =
      "\x1b[".data ++ (toString (31 : Int)).data ++ ";".data ++
        (toString (44 : Int)).data ++ "m".data ∧
    colorize "hi".data (some "red".data) (some "blue".data) =
      mkStartTag (resolveColor (some "red".data)) (resolveBg (some "blue".data)) ++
        processText (mkStartTag (resolveColor (some "red".data))
          (resolveBg (some "blue".data))) "hi".data ++ resetL := by
  have h := colorize_composite_escape "hi".data "red".data "blue".data
    ⟨31, "red".data⟩ ⟨44, "bg_blue".data⟩ (by decide) (by decide)
  exact ⟨by decide, by decide, h.1, h.2.2⟩

/-- C4 (counterexample): passing the JSON text `{"x": true}` as a string
does not render identically to passing the mapping directly at level 0 —
the string branch recurses one indentation level deeper, so the two
outputs differ. -/
theorem theme_string_structure_counterexample :
    themeColorize 10 (PyVal.str "\x7b\"x\": true\x7d".data) darkThemeColors 0 ≠
      themeColorize 10 (PyVal.dict [("x".data, PyVal.bool true)]) darkThemeColors 0 :=
  fun h => absurd (congrArg Except.toOption h) (by decide)

/-- C4 (amended): for every theme supplying the six roles and any fuel,
the JSON text `{"x": true}` passed as a string renders exactly as the
mapping `{"x": true}` rendered at indentation level 1 — one level deeper
than the claim's level 0. -/
theorem theme_string_structure_equiv (theme : Theme) (fuel : Nat) :
    themeColorize (fuel + 1) (PyVal.str "\x7b\"x\": true\x7d".data) theme 0 =
      themeColorize fuel (PyVal.dict [("x".data, PyVal.bool true)]) theme 1 := rfl

/-- C5 (counterexample): the background lookup does not strip a `bg_`
prefix from the requested name: `"bg_red"` resolves to nothing while
`"red"` resolves to the background code 41, and `colorize` colors
nothing for `"bg_red"`. -/
theorem bg_prefix_not_stripped_at_lookup :
    getBgColorCode "bg_red".data = [] ∧
    getBgColorCode "red".data = "\x1b[41m".data ∧
    getBgColorCode "bg_red".data ≠ getBgColorCode "red".data ∧
    colorize "t".data Option.none (some "bg_red".data) = "t".data ∧
    colorize "t".data Option.none (some "red".data) = "\x1b[41mt\x1b[0m".data := by
  decide

/-- C5 (amended): the `bg_` prefix is stripped from the built-in
background names when the table is built, so the background mapping is
keyed by the base color name; the lookup itself uses the requested name
unmodified, so the base name resolves to the background code and the
`bg_`-prefixed name resolves to nothing. -/
theorem bg_strip_at_construction (name : Str) (code : Int)
    (h : (name, code) ∈ ansiBgColors) :
    lookupS (stripBg name) colorizerBgColors = some ⟨code, name⟩ ∧
    getBgColorCode (stripBg name) = ansiStr ⟨code, name⟩ ∧
    getBgColorCode name = [] := by
  fin_cases h <;> exact ⟨by decide, by decide, by decide⟩

theorem bg_strip_at_construction_witness :
    ("bg_red".data, (41 : Int)) ∈ ansiBgColors ∧
    lookupS (stripBg "bg_red".data) colorizerBgColors = some ⟨41, "bg_red".data⟩ ∧
    getBgColorCode (stripBg "bg_red".data) = ansiStr ⟨41, "bg_red".data⟩ ∧
    getBgColorCode "bg_red".data = [] := by
  have h := bg_strip_at_construction "bg_red".data 41 (by decide)
  exact ⟨by decide, h.1, h.2.1, h.2.2⟩

/-- C6 (code-bug evaluation): an override entry with a `code` field is
stored in the engine's config, and `ColorConfig`'s own lookup resolves
it, but the resolution `colorize` uses reads only the built-in tables, so
the override name resolves to nothing and `colorize` leaves the text
unstyled. -/
theorem override_config_ignored :
    (mkColorizer [("orange".data, [("code".data, 208)])]).config =
      [("orange".data, [("code".data, 208)])] ∧
    configGetColorCode [("orange".data, [("code".data, 208)])] "orange".data =
      Except.ok (ansiStr ⟨208, "orange".data⟩) ∧
    stateGetColorCode (mkColorizer [("orange".data, [("code".data, 208)])])
      "orange".data = [] ∧
    colorize "hi".data (some "orange".data) Option.none = "hi".data :=
  ⟨rfl, rfl, rfl, rfl⟩

/-- C7 (counterexample): a configuration whose record lacks the `code`
field constructs successfully, and the configuration fault is raised at
lookup time instead. -/
theorem config_missing_code_counterexample :
    mkColorConfig (some [("x".data, [("other".data, 5)])]) =
      Except.ok [("x".data, [("other".data, 5)])] ∧
    configGetColorCode [("x".data, [("other".data, 5)])] "x".data =
      Except.error "invalid color configuration: missing code field" :=
  ⟨rfl, rfl⟩

/-- C7 (amended): construction from an in-memory mapping always succeeds
without validating any entry; a present record missing the `code` field
trips the assertion when that name is first looked up. -/
theorem config_validation_at_lookup (cfg : ConfigDict) (name : Str)
    (entry : ConfigEntry)
    (hmem : lookupEntry name cfg = some entry)
    (hmiss : lookupField "code".data entry = Option.none) :
    mkColorConfig (some cfg) = Except.ok cfg ∧
    configGetColorCode cfg name =
      Except.error "invalid color configuration: missing code field" := by
  refine ⟨rfl, ?_⟩
  rw [configGetColorCode, configGetColorObject, hmem]
  simp [hmiss]

theorem config_validation_at_lookup_witness :
    lookupEntry "x".data [("x".data, [("other".data, 5)])] = some [("other".data, 5)] ∧
    lookupField "code".data [("other".data, (5 : Int))] = Option.none ∧
    mkColorConfig (some [("x".data, [("other".data, 5)])]) =
      Except.ok [("x".data, [("other".data, 5)])] ∧
    configGetColorCode [("x".data, [("other".data, 5)])] "x".data =
      Except.error "invalid color configuration: missing code field" := by
  have h := config_validation_at_lookup [("x".data, [("other".data, 5)])] "x".data
    [("other".data, 5)] rfl rfl
  exact ⟨rfl, rfl, h.1, h.2⟩

/-- C8 (code-bug evaluation): the one-character string `½` fails JSON
parsing, is numeric for `str.isnumeric`, and makes `float()` raise
`ValueError`, so `theme_colorize` raises at render time rather than
returning a string. -/
theorem theme_colorize_float_raises :
    pyJsonLoads "½".data = Option.none ∧
    pyIsNumeric "½".data = true ∧
    pyFloatRepr "½".data = Option.none ∧
    themeColorize 5 (PyVal.str "½".data) darkThemeColors 0 =
      Except.error "ValueError: could not convert string to float" :=
  ⟨rfl, rfl, rfl, rfl⟩

/-- C9 (counterexample): the punctuation of an empty mapping carries no
escape sequence at all in the rendered output, so it is not wrapped in
the escape sequence of a grey color: the name `grey` is not in the
palette. -/
theorem theme_punctuation_not_grey_wrapped :
    themeColorize 3 (PyVal.dict []) darkThemeColors 0 =
      Except.ok "\x7b\n\x7d".data ∧
    esc ∉ "\x7b\n\x7d".data ∧
    getColorCode "grey".data = [] :=
  ⟨rfl, by decide, rfl⟩

/-- C9 (amended): structural punctuation is passed through `colorize`
with the fixed name `grey`, which resolves to no palette entry, so for
every theme the punctuation appears unstyled — and hence
theme-independent — in the output. -/
theorem theme_punctuation_unstyled (s : Str) (theme : Theme) (lvl fuel : Nat) :
    colorize s (some "grey".data) Option.none = s ∧
    themeColorize (fuel + 1) (PyVal.dict []) theme lvl =
      Except.ok ('\x7b' :: '\n' :: indentStr lvl ++ ['\x7d']) ∧
    themeColorize (fuel + 1) (PyVal.list []) theme lvl =
      Except.ok ('[' :: '\n' :: indentStr lvl ++ [']']) := by
  refine ⟨colorize_identity_uncolored _ _ _ (by decide) rfl, ?_, ?_⟩
  · simp only [themeColorize, renderEntries]
    rfl
  · simp only [themeColorize, renderItems]
    rfl

theorem getLast?_append_comma {l t : Str} (h : t.getLast? = some ',') :
    (l ++ t).getLast? = some ',' := by
  simp [List.getLast?_append, h]

theorem getLast?_cons_comma {a : Char} {t : Str} (h : t.getLast? = some ',') :
    (a :: t).getLast? = some ',' := by
  rw [show (a :: t) = [a] ++ t from rfl]
  exact getLast?_append_comma h

/-- Each non-empty run of the dict loop ends in the (unstyled) comma. -/
theorem renderEntries_getLast :
    ∀ (fuel : Nat) (e : Str × PyVal) (rest : List (Str × PyVal)) (theme : Theme)
      (lvl : Nat) (r : Str),
      renderEntries fuel (e :: rest) theme lvl = Except.ok r →
      r.getLast? = some ',' := by
  intro fuel
  induction fuel with
  | zero =>
    intro e rest theme lvl r h
    simp [renderEntries] at h
  | succ n ih =>
    intro e rest theme lvl r h
    obtain ⟨key, value⟩ := e
    rw [renderEntries] at h
    cases h1 : themeColorize n value theme (lvl + 1) with
    | error e' =>
      rw [h1] at h
      simp at h
    | ok rv =>
      rw [h1] at h
      cases h2 : renderEntries n rest theme lvl with
      | error e' =>
        rw [h2] at h
        simp at h
      | ok rTail =>
        rw [h2] at h
        simp only [Except.ok.injEq] at h
        subst h
        rw [show colorize ",".data (some "grey".data) Option.none = [','] from rfl]
        cases rest with
        | nil =>
          have ht : rTail = [] := by
            simp only [renderEntries, Except.ok.injEq] at h2
            exact h2.symm
          subst ht
          simp only [List.append_nil]
          exact getLast?_append_comma rfl
        | cons e' rest' =>
          have ht := ih e' rest' theme lvl rTail h2
          exact getLast?_append_comma ht

/-- Each non-empty run of the list loop ends in the (unstyled) comma. -/
theorem renderItems_getLast :
    ∀ (fuel : Nat) (item : PyVal) (rest : List PyVal) (theme : Theme)
      (lvl : Nat) (r : Str),
      renderItems fuel (item :: rest) theme lvl = Except.ok r →
      r.getLast? = some ',' := by
  intro fuel
  induction fuel with
  | zero =>
    intro item rest theme lvl r h
    simp [renderItems] at h
  | succ n ih =>
    intro item rest theme lvl r h
    rw [renderItems] at h
    cases h1 : themeColorize n item theme (lvl + 1) with
    | error e' =>
      rw [h1] at h
      simp at h
    | ok ri =>
      rw [h1] at h
      cases h2 : renderItems n rest theme lvl with
      | error e' =>
        rw [h2] at h
        simp at h
      | ok rTail =>
        rw [h2] at h
        simp only [Except.ok.injEq] at h
        subst h
        rw [show colorize ",".data (some "grey".data) Option.none = [','] from rfl]
        cases rest with
        | nil =>
          have ht : rTail = [] := by
            simp only [renderItems, Except.ok.injEq] at h2
            exact h2.symm
          subst ht
          simp only [List.append_nil]
          exact getLast?_append_comma rfl
        | cons e' rest' =>
          have ht := ih e' rest' theme lvl rTail h2
          exact getLast?_append_comma ht

/-- The comma never occurs in the rendering of an empty container. -/
theorem comma_notin_empty_container (lvl : Nat) (a b : Char)
    (ha : a ≠ ',') (hb : b ≠ ',') :
    ',' ∉ (a :: '\n' :: indentStr lvl ++ [b]) := by
  intro hmem
  rcases List.mem_append.mp hmem with h | h
  · rcases List.mem_cons.mp h with h | h
    · exact ha h.symm
    · rcases List.mem_cons.mp h with h | h
      · exact absurd h (by decide)
      · rw [indentStr] at h
        exact absurd (List.eq_of_mem_replicate h) (by decide)
  · rcases List.mem_cons.mp h with h | h
    · exact hb h.symm
    · simp at h

/-- C10: Trailing-comma output shape.  Every successfully rendered
non-empty mapping ends in a comma directly followed by the newline,
indentation and closing brace (and similarly for sequences and the
closing bracket), while the rendering of an empty mapping or sequence
contains no comma at all. -/
theorem theme_trailing_comma (fuel lvl : Nat) (theme : Theme)
    (entries : List (Str × PyVal)) (items : List PyVal) (outD outL : Str)
    (hne : entries ≠ []) (hni : items ≠ [])
    (hD : themeColorize fuel (PyVal.dict entries) theme lvl = Except.ok outD)
    (hL : themeColorize fuel (PyVal.list items) theme lvl = Except.ok outL) :
    (∃ q, outD = q ++ (',' :: '\n' :: indentStr lvl ++ ['\x7d'])) ∧
    (∃ q, outL = q ++ (',' :: '\n' :: indentStr lvl ++ [']'])) ∧
    themeColorize (fuel + 1) (PyVal.dict []) theme lvl =
      Except.ok ('\x7b' :: '\n' :: indentStr lvl ++ ['\x7d']) ∧
    themeColorize (fuel + 1) (PyVal.list []) theme lvl =
      Except.ok ('[' :: '\n' :: indentStr lvl ++ [']']) ∧
    ',' ∉ ('\x7b' :: '\n' :: indentStr lvl ++ ['\x7d']) ∧
    ',' ∉ ('[' :: '\n' :: indentStr lvl ++ ([']'] : Str)) := by
  refine ⟨?_, ?_, (theme_punctuation_unstyled [] theme lvl fuel).2.1,
    (theme_punctuation_unstyled [] theme lvl fuel).2.2,
    comma_notin_empty_container lvl _ _ (by decide) (by decide),
    comma_notin_empty_container lvl _ _ (by decide) (by decide)⟩
  · cases fuel with
    | zero => simp [themeColorize] at hD
    | succ n =>
      rcases entries with _ | ⟨e, rest⟩
      · exact absurd rfl hne
      · simp only [themeColorize] at hD
        cases hm : renderEntries n (e :: rest) theme lvl with
        | error e' =>
          rw [hm] at hD
          simp at hD
        | ok middle =>
          rw [hm] at hD
          simp only [Except.ok.injEq] at hD
          obtain ⟨m', hm'⟩ :=
            List.getLast?_eq_some_iff.mp (renderEntries_getLast n e rest theme lvl middle hm)
          subst hm'
          refine ⟨'\x7b' :: m', ?_⟩
          rw [← hD,
            show colorize "\x7b".data (some "grey".data) Option.none = ['\x7b'] from rfl,
            show colorize "\x7d".data (some "grey".data) Option.none = ['\x7d'] from rfl]
          simp
  · cases fuel with
    | zero => simp [themeColorize] at hL
    | succ n =>
      rcases items with _ | ⟨item, rest⟩
      · exact absurd rfl hni
      · simp only [themeColorize] at hL
        cases hm : renderItems n (item :: rest) theme lvl with
        | error e' =>
          rw [hm] at hL
          simp at hL
        | ok middle =>
          rw [hm] at hL
          simp only [Except.ok.injEq] at hL
          obtain ⟨m', hm'⟩ :=
            List.getLast?_eq_some_iff.mp (renderItems_getLast n item rest theme lvl middle hm)
          subst hm'
          refine ⟨'[' :: m', ?_⟩
          rw [← hL,
            show colorize "[".data (some "grey".data) Option.none = ['['] from rfl,
            show colorize "]".data (some "grey".data) Option.none = [']'] from rfl]
          simp

theorem theme_trailing_comma_witness :
    ([("a".data, PyVal.int 1)] : List (Str × PyVal)) ≠ [] ∧
    ([PyVal.int 1] : List PyVal) ≠ [] ∧
    themeColorize 5 (PyVal.dict [("a".data, PyVal.int 1)]) darkThemeColors 0 =
      Except.ok ('\x7b' :: "\n  \"\x1b[96ma\x1b[0m\" : \x1b[91m1\x1b[0m,\n\x7d".data) ∧
    themeColorize 5 (PyVal.list [PyVal.int 1]) darkThemeColors 0 =
      Except.ok ('[' :: "\n  \x1b[91m1\x1b[0m,\n]".data) ∧
    (∃ q, '\x7b' :: "\n  \"\x1b[96ma\x1b[0m\" : \x1b[91m1\x1b[0m,\n\x7d".data =
      q ++ (',' :: '\n' :: indentStr 0 ++ ['\x7d'])) ∧
    (∃ q, '[' :: "\n  \x1b[91m1\x1b[0m,\n]".data =
      q ++ (',' :: '\n' :: indentStr 0 ++ [']'])) := by
  have h := theme_trailing_comma 5 0 darkThemeColors
    [("a".data, PyVal.int 1)] [PyVal.int 1]
    ('\x7b' :: "\n  \"\x1b[96ma\x1b[0m\" : \x1b[91m1\x1b[0m,\n\x7d".data)
    ('[' :: "\n  \x1b[91m1\x1b[0m,\n]".data)
    (List.cons_ne_nil _ _) (List.cons_ne_nil _ _) (by rfl) (by rfl)
  exact ⟨List.cons_ne_nil _ _, List.cons_ne_nil _ _, by rfl, by rfl, h.1, h.2.1⟩

end Colordoll
